import Mathlib

/-!
Verification development for the app-name reconciliation script
(fuzzy_match.py).  The script loads two CSV files into name lists,
classifies every name of list A against list B (exact match, then per-B
substring containment, then a difflib sequence-matching ratio), and
prints a summary, the sorted unmatched names and up to ten fuzzy lines.

Strings are modelled as List Char.  Python str.lower is modelled by
ASCII case folding (Char.toLower); Python floats are modelled by exact
rationals.  difflib.SequenceMatcher is embedded for the call pattern
used by the script: junk argument None and fewer than 200 elements in
the second sequence, so no element is junk and the autojunk heuristic
never triggers, whence the junk extension steps of find_longest_match
are vacuous and the matcher reduces to the longest-run dynamic program
plus the recursive block decomposition.
-/

namespace FuzzyMatch

/-- Fallback character for out-of-range list reads; every lemma that
touches characters carries the bounds making it irrelevant. -/
def defaultChar : Char := ' '

/-- Python str.strip with an explicit character predicate: remove the
longest prefix and suffix of characters satisfying p. -/
def stripBy (p : Char → Bool) (s : List Char) : List Char :=
  ((s.dropWhile p).reverse.dropWhile p).reverse

/-- Characters treated as whitespace by Python str.strip() (ASCII). -/
def isPySpace (c : Char) : Bool :=
  c == ' ' || c == '\t' || c == '\n' || c == '\r' || c == '\x0b' || c == '\x0c'

/-- Python line.strip() / name.strip(). -/
def stripWS (s : List Char) : List Char := stripBy isPySpace s

/-- Python current.strip of a double-quote character, used on each field. -/
def stripQuotes (s : List Char) : List Char := stripBy (fun c => c == '"') s

/-- Python app.strip of space-or-quote, producing app_clean. -/
def stripSpaceQuote (s : List Char) : List Char :=
  stripBy (fun c => c == ' ' || c == '"') s

/-- Python str.lower, modelled as ASCII case folding. -/
def lower (s : List Char) : List Char := s.map Char.toLower

/-- State of the hand-rolled quoted-field splitter of Loader A:
finished fields, the field being accumulated, and the inside-quotes flag. -/
structure SplitState where
  fields : List (List Char)
  cur : List Char
  inQuotes : Bool

/-- One character step of the splitter (source lines 15-22): a quote not
preceded by a backslash toggles the flag and is still appended; a comma
outside quotes closes the current field (stripping leading and trailing
quotes); every other character is appended. -/
def splitStep (st : SplitState) (c : Char) : SplitState :=
  if c = '"' ∧ (st.cur = [] ∨ st.cur.getLast? ≠ some '\\') then
    { st with inQuotes := !st.inQuotes, cur := st.cur ++ [c] }
  else if c = ',' ∧ st.inQuotes = false then
    { st with fields := st.fields ++ [stripQuotes st.cur], cur := [] }
  else
    { st with cur := st.cur ++ [c] }

/-- Loader A's field splitter for one line (source lines 12-23). -/
def parseLine (line : List Char) : List (List Char) :=
  let st := line.foldl splitStep ⟨[], [], false⟩
  st.fields ++ [stripQuotes st.cur]

/-- Names contributed by one line of applications.csv (source lines
10-28): blank lines are skipped, rows with at most 3 fields are skipped,
the stripped 4th field is kept when nonempty. -/
def rowNamesA (line : List Char) : List (List Char) :=
  if stripWS line = [] then []
  else
    let ps := parseLine line
    if 3 < ps.length then
      let name := stripWS (ps.getD 3 [])
      if name = [] then [] else [name]
    else []

/-- Loader A over a whole file: drop the header line, concatenate the
per-row names. -/
def appNamesOf (fileLines : List (List Char)) : List (List Char) :=
  (fileLines.drop 1).flatMap rowNamesA

/-- Positions of character c in b, ascending: difflib's b2j chain. -/
def b2j (b : List Char) (c : Char) : List Nat :=
  (List.range b.length).filter (fun j => b.getD j defaultChar == c)

/-- State of difflib find_longest_match: the run-length table of the
previous row (0 where absent) and the best block found so far. -/
structure FlmState where
  j2len : Nat → Nat
  besti : Nat
  bestj : Nat
  bestsize : Nat

/-- Length of the diagonal run ending at the current row, column j:
one more than the previous row's run at column j - 1 (difflib's
j2len.get with default 0). -/
def runLen (old : Nat → Nat) (j : Nat) : Nat :=
  (if j = 0 then 0 else old (j - 1)) + 1

/-- Inner step of find_longest_match at row i, column j: the run ending
at (i, j) extends the run ending at (i-1, j-1) of the previous row by
one; a strictly longer run replaces the best block. -/
def flmInner (old : Nat → Nat) (i : Nat) (acc : FlmState) (j : Nat) : FlmState :=
  { j2len := fun x => if x = j then runLen old j else acc.j2len x,
    besti := if acc.bestsize < runLen old j then i + 1 - runLen old j else acc.besti,
    bestj := if acc.bestsize < runLen old j then j + 1 - runLen old j else acc.bestj,
    bestsize := if acc.bestsize < runLen old j then runLen old j else acc.bestsize }

/-- Columns visited at row i: positions of a[i] in b, restricted to
[blo, bhi) as by difflib's continue/break tests. -/
def flmCols (b : List Char) (c : Char) (blo bhi : Nat) : List Nat :=
  (b2j b c).filter (fun j => decide (blo ≤ j) && decide (j < bhi))

/-- One row of find_longest_match: fold the columns, starting from a
fresh run table and the best block carried over. -/
def flmRow (a b : List Char) (blo bhi : Nat) (st : FlmState) (i : Nat) : FlmState :=
  (flmCols b (a.getD i defaultChar) blo bhi).foldl (flmInner st.j2len i)
    { st with j2len := fun _ => 0 }

/-- difflib find_longest_match on a[alo:ahi] and b[blo:bhi] with no junk:
returns (besti, bestj, bestsize). -/
def findLongestMatch (a b : List Char) (alo ahi blo bhi : Nat) : Nat × Nat × Nat :=
  let st := (List.range' alo (ahi - alo)).foldl (flmRow a b blo bhi)
    { j2len := fun _ => 0, besti := alo, bestj := blo, bestsize := 0 }
  (st.besti, st.bestj, st.bestsize)

/-- Recursive presentation of difflib get_matching_blocks (minus the
zero-width sentinel and the adjacency merge, which do not change the
matched total): split around the longest match and recurse on both
sides.  Fuel bounds the recursion depth; the interval shrinks at every
call, so the fuel passed by matchingBlocks is never exhausted. -/
def matchingBlocksAux (a b : List Char) :
    Nat → Nat → Nat → Nat → Nat → List (Nat × Nat × Nat)
  | 0, _, _, _, _ => []
  | fuel + 1, alo, ahi, blo, bhi =>
    match findLongestMatch a b alo ahi blo bhi with
    | (i, j, k) =>
      if k = 0 then []
      else
        matchingBlocksAux a b fuel alo i blo j ++
          (i, j, k) :: matchingBlocksAux a b fuel (i + k) ahi (j + k) bhi

/-- Matching blocks of the two full sequences. -/
def matchingBlocks (a b : List Char) : List (Nat × Nat × Nat) :=
  matchingBlocksAux a b (a.length + 1) 0 a.length 0 b.length

/-- Total number of matched elements: the M of difflib's ratio. -/
def matchesTotal (a b : List Char) : Nat :=
  ((matchingBlocks a b).map (fun r => r.2.2)).sum

/-- difflib ratio: 2M / T as an exact rational, 1 when both sequences
are empty (difflib _calculate_ratio). -/
def ratio (a b : List Char) : ℚ :=
  if a.length + b.length = 0 then 1
  else mkRat (2 * (matchesTotal a b : ℤ)) (a.length + b.length)

/-- The 0.8 threshold of the similarity branch, as an exact rational. -/
def simThreshold : ℚ := mkRat 4 5

/-- Bool test that n is a prefix of h. -/
def isPrefixB : List Char → List Char → Bool
  | [], _ => true
  | _ :: _, [] => false
  | c :: cs, d :: ds => c == d && isPrefixB cs ds

/-- Bool test that n occurs as a contiguous substring of h: the Python
membership test x in y on strings. -/
def isSubstr (n : List Char) : List Char → Bool
  | [] => isPrefixB n []
  | d :: ds => isPrefixB n (d :: ds) || isSubstr n ds

/-- Bidirectional case-insensitive substring containment test
(source line 58). -/
def containsEitherWay (ac ai : List Char) : Bool :=
  isSubstr (lower ac) (lower ai) || isSubstr (lower ai) (lower ac)

/-- Outcome of the per-B fuzzy loop: containment hit or similarity hit. -/
inductive FuzzyHit where
  | contain (ai : List Char)
  | similar (ai : List Char) (score : ℚ)
deriving DecidableEq, Repr

/-- The fuzzy loop of source lines 55-69 for one cleaned A-name:
per B entry, the containment test (gated by both lengths exceeding 3)
is decided before the similarity-ratio test, and the first hit breaks
the loop. -/
def fuzzyFind (ac : List Char) : List (List Char) → Option FuzzyHit
  | [] => none
  | ai :: rest =>
    if containsEitherWay ac ai && (decide (3 < ac.length) && decide (3 < ai.length)) then
      some (FuzzyHit.contain ai)
    else if simThreshold < ratio (lower ac) (lower ai) then
      some (FuzzyHit.similar ai (ratio (lower ac) (lower ai)))
    else fuzzyFind ac rest

/-- Case-insensitive exact-match test (source line 48). -/
def exactMatch (ac : List Char) (ais : List (List Char)) : Bool :=
  ais.any (fun ai => lower ac == lower ai)

/-- Classification of one A-name, as in the spec's data model. -/
inductive MatchResult where
  | exact
  | fuzzyContain (ai : List Char)
  | fuzzySim (ai : List Char) (score : ℚ)
  | unmatched
deriving DecidableEq, Repr

/-- Cleaned form of an A-name (source line 45). -/
def appClean (app : List Char) : List Char := stripSpaceQuote app

/-- Full classification of one A-name against the B list
(source lines 44-72): exact match short-circuits, else the fuzzy loop,
else unmatched. -/
def classify (app : List Char) (ais : List (List Char)) : MatchResult :=
  let ac := appClean app
  if exactMatch ac ais then MatchResult.exact
  else
    match fuzzyFind ac ais with
    | some (FuzzyHit.contain ai) => MatchResult.fuzzyContain ai
    | some (FuzzyHit.similar ai s) => MatchResult.fuzzySim ai s
    | none => MatchResult.unmatched

/-- Python format of a nonnegative rational to two decimal places, as
f-string .2f does for the floats arising here (none of which sits on a
rounding tie): the hundredths value is floor of 100 q plus one half,
computed on the exact fraction. -/
def fmt2 (q : ℚ) : List Char :=
  let h := ((200 * q.num + q.den) / (2 * (q.den : ℤ))).toNat
  Nat.toDigits 10 (h / 100) ++
    '.' :: (if h % 100 < 10 then '0' :: Nat.toDigits 10 (h % 100)
            else Nat.toDigits 10 (h % 100))

/-- The literal " -> " marker used both to build matched lines and to
select the fuzzy report section. -/
def arrowMark : List Char := [' ', '-', '>', ' ']

/-- String appended to matched_apps for one A-name, when any
(source lines 51, 60, 67). -/
def matchedEntry (app : List Char) (ais : List (List Char)) : Option (List Char) :=
  match classify app ais with
  | MatchResult.exact => some (appClean app)
  | MatchResult.fuzzyContain ai => some (appClean app ++ arrowMark ++ ai)
  | MatchResult.fuzzySim ai s =>
      some (appClean app ++ arrowMark ++ ai ++
        " (similarity: ".toList ++ fmt2 s ++ ")".toList)
  | MatchResult.unmatched => none

/-- String appended to unmatched_apps for one A-name, when any
(source line 72). -/
def unmatchedEntry (app : List Char) (ais : List (List Char)) : Option (List Char) :=
  if classify app ais = MatchResult.unmatched then some (appClean app) else none

/-- The matched_apps accumulator after the main loop. -/
def matchedApps (apps ais : List (List Char)) : List (List Char) :=
  apps.filterMap (fun app => matchedEntry app ais)

/-- The unmatched_apps accumulator after the main loop. -/
def unmatchedApps (apps ais : List (List Char)) : List (List Char) :=
  apps.filterMap (fun app => unmatchedEntry app ais)

/-- Python string comparison (code-point lexicographic), as a Bool. -/
def lexLe : List Char → List Char → Bool
  | [], _ => true
  | _ :: _, [] => false
  | c :: cs, d :: ds =>
    if c.toNat < d.toNat then true
    else if d.toNat < c.toNat then false
    else lexLe cs ds

/-- The order relation underlying Python sorted on strings. -/
def lexRel (x y : List Char) : Prop := lexLe x y = true

instance : DecidableRel lexRel := fun x y => by
  unfold lexRel; infer_instance

/-- The printed unmatched list: Python sorted(unmatched_apps)
(source line 78), modelled by a stable insertion sort. -/
def sortedUnmatched (apps ais : List (List Char)) : List (List Char) :=
  (unmatchedApps apps ais).insertionSort lexRel

/-- The fuzzy-report selection (source line 82): matched lines that
contain the marker " -> ". -/
def fuzzyMatches (apps ais : List (List Char)) : List (List Char) :=
  (matchedApps apps ais).filter (fun m => isSubstr arrowMark m)

/-- The printed fuzzy report: first ten selected lines (source line 83). -/
def fuzzyReport (apps ais : List (List Char)) : List (List Char) :=
  (fuzzyMatches apps ais).take 10

/-- A diagonal run of matching characters: len positions starting at
i0 in a and j0 in b agree pairwise. -/
def MatchRun (a b : List Char) (i0 j0 len : Nat) : Prop :=
  ∀ t, t < len → a.getD (i0 + t) defaultChar = b.getD (j0 + t) defaultChar

/-- Invariant of the run-length table before processing row i: a
positive entry at column j records a run that ends at row i - 1,
column j, stays inside [alo, i) × [blo, bhi), and matches pairwise. -/
def J2Before (a b : List Char) (alo blo bhi i : Nat) (f : Nat → Nat) : Prop :=
  ∀ j, 0 < f j → blo ≤ j ∧ j < bhi ∧ alo + f j ≤ i ∧ blo + f j ≤ j + 1 ∧
    MatchRun a b (i - f j) (j + 1 - f j) (f j)

/-- Invariant of the best block: either empty, or a genuine matching
block inside [alo, ahi) × [blo, bhi). -/
def BestInv (a b : List Char) (alo ahi blo bhi bi bj bs : Nat) : Prop :=
  bs = 0 ∨
    (1 ≤ bs ∧ alo ≤ bi ∧ bi + bs ≤ ahi ∧ blo ≤ bj ∧ bj + bs ≤ bhi ∧
      MatchRun a b bi bj bs)

/-- Sum of the block sizes of a block list. -/
def sumK (l : List (Nat × Nat × Nat)) : Nat := (l.map (fun r => r.2.2)).sum

/-! Helper lemmas about the splitter and the classifier. -/

/-- Head of dropWhile never satisfies the dropped predicate. -/
theorem dropWhile_head_not {p : Char → Bool} :
    ∀ (l : List Char) (c : Char), (l.dropWhile p).head? = some c → p c = false := by
  intro l
  induction l with
  | nil => intro c h; simp [List.dropWhile] at h
  | cons d ds ih =>
    intro c h
    rw [List.dropWhile_cons] at h
    by_cases hd : p d
    · rw [if_pos hd] at h; exact ih c h
    · rw [if_neg hd] at h
      simp only [List.head?_cons, Option.some.injEq] at h
      subst h
      exact Bool.eq_false_iff.mpr hd

/-- First character of a stripped list never satisfies the predicate. -/
theorem stripBy_head_not {p : Char → Bool} (l : List Char) (c : Char)
    (h : (stripBy p l).head? = some c) : p c = false := by
  unfold stripBy at h
  rw [List.head?_reverse] at h
  have hsuf : ((l.dropWhile p).reverse.dropWhile p) <:+ (l.dropWhile p).reverse :=
    List.dropWhile_suffix p
  obtain ⟨w, hw⟩ := hsuf
  have hne : (l.dropWhile p).reverse.dropWhile p ≠ [] := by
    intro hnil; rw [hnil] at h; simp at h
  have : ((l.dropWhile p).reverse).getLast? = some c := by
    rw [← hw, List.getLast?_append_of_ne_nil w hne]; exact h
  rw [List.getLast?_reverse] at this
  exact dropWhile_head_not _ _ this

/-- Last character of a stripped list never satisfies the predicate. -/
theorem stripBy_getLast_not {p : Char → Bool} (l : List Char) (c : Char)
    (h : (stripBy p l).getLast? = some c) : p c = false := by
  unfold stripBy at h
  rw [List.getLast?_reverse] at h
  exact dropWhile_head_not _ _ h

/-- Every finished field of the splitter fold is a stripQuotes image,
provided the incoming fields are. -/
theorem foldl_splitStep_fields :
    ∀ (line : List Char) (st : SplitState),
      (∀ f ∈ st.fields, ∃ s, f = stripQuotes s) →
      ∀ f ∈ (line.foldl splitStep st).fields, ∃ s, f = stripQuotes s := by
  intro line
  induction line with
  | nil => intro st h; simpa using h
  | cons c cs ih =>
    intro st h
    rw [List.foldl_cons]
    apply ih
    intro f hf
    unfold splitStep at hf
    split_ifs at hf
    · exact h f hf
    · simp only at hf
      rcases List.mem_append.mp hf with hl | hr
      · exact h f hl
      · exact ⟨st.cur, by simpa using hr⟩
    · exact h f hf

/-- Every field produced by parseLine is a stripQuotes image. -/
theorem parseLine_mem_strip (line f : List Char) (h : f ∈ parseLine line) :
    ∃ s, f = stripQuotes s := by
  unfold parseLine at h
  simp only at h
  rcases List.mem_append.mp h with hl | hr
  · exact foldl_splitStep_fields line ⟨[], [], false⟩ (by intro f hf; simp at hf) f hl
  · exact ⟨(line.foldl splitStep ⟨[], [], false⟩).cur, by simpa using hr⟩

/-- A containment hit of the fuzzy loop always passed the length gate. -/
theorem fuzzyFind_contain_lengths (ac : List Char) :
    ∀ (l : List (List Char)) (ai : List Char),
      fuzzyFind ac l = some (FuzzyHit.contain ai) →
      3 < ac.length ∧ 3 < ai.length := by
  intro l
  induction l with
  | nil => intro ai h; simp [fuzzyFind] at h
  | cons x xs ih =>
    intro ai h
    rw [fuzzyFind] at h
    by_cases h1 : (containsEitherWay ac x &&
        (decide (3 < ac.length) && decide (3 < x.length))) = true
    · rw [if_pos h1] at h
      simp only [Option.some.injEq, FuzzyHit.contain.injEq] at h
      subst h
      have := (Bool.and_eq_true _ _).mp h1
      have h2 := (Bool.and_eq_true _ _).mp this.2
      exact ⟨of_decide_eq_true h2.1, of_decide_eq_true h2.2⟩
    · rw [if_neg h1] at h
      by_cases h2 : simThreshold < ratio (lower ac) (lower x)
      · rw [if_pos h2] at h; simp at h
      · rw [if_neg h2] at h; exact ih ai h

/-- When no entry of the B list triggers either fuzzy strategy, the
fuzzy loop returns nothing. -/
theorem fuzzyFind_none (ac : List Char) :
    ∀ (l : List (List Char)),
      (∀ x ∈ l, ¬(3 < ac.length ∧ 3 < x.length) ∧
        ¬(simThreshold < ratio (lower ac) (lower x))) →
      fuzzyFind ac l = none := by
  intro l
  induction l with
  | nil => intro _; rfl
  | cons x xs ih =>
    intro h
    obtain ⟨hlen, hsim⟩ := h x (List.mem_cons_self x xs)
    have h1 : (containsEitherWay ac x &&
        (decide (3 < ac.length) && decide (3 < x.length))) = false := by
      have : (decide (3 < ac.length) && decide (3 < x.length)) = false := by
        rcases Decidable.em (3 < ac.length) with ha | ha
        · have hb : ¬(3 < x.length) := fun hx => hlen ⟨ha, hx⟩
          simp [ha, hb]
        · simp [ha]
      simp [this]
    rw [fuzzyFind, if_neg (by simp [h1]), if_neg hsim]
    exact ih (fun x hx => h x (List.mem_cons_of_mem _ hx))

/-! Claim theorems. -/

/-- C1: within the single pass over B in original order, substring
containment is decided before the similarity ratio for the same B entry;
with no earlier trigger, a containment hit at b wins regardless of any
later entry, and a similarity hit at b (with containment failing at b)
wins regardless of any later containment entry. -/
theorem c1_tiebreak (ac b : List Char) (pre post : List (List Char))
    (hpre : ∀ x ∈ pre,
      (containsEitherWay ac x && (decide (3 < ac.length) && decide (3 < x.length))) = false ∧
      ¬(simThreshold < ratio (lower ac) (lower x))) :
    ((containsEitherWay ac b && (decide (3 < ac.length) && decide (3 < b.length))) = true →
      fuzzyFind ac (pre ++ b :: post) = some (FuzzyHit.contain b)) ∧
    ((containsEitherWay ac b && (decide (3 < ac.length) && decide (3 < b.length))) = false →
      simThreshold < ratio (lower ac) (lower b) →
      fuzzyFind ac (pre ++ b :: post) =
        some (FuzzyHit.similar b (ratio (lower ac) (lower b)))) := by
  induction pre with
  | nil =>
    constructor
    · intro h1
      rw [List.nil_append, fuzzyFind, if_pos h1]
    · intro h1 h2
      rw [List.nil_append, fuzzyFind, if_neg (by simp [h1]), if_pos h2]
  | cons x xs ih =>
    obtain ⟨hc, hs⟩ := hpre x (List.mem_cons_self x xs)
    have hstep : fuzzyFind ac ((x :: xs) ++ b :: post) = fuzzyFind ac (xs ++ b :: post) := by
      rw [List.cons_append, fuzzyFind, if_neg (by simp [hc]), if_neg hs]
    have ih2 := ih (fun y hy => hpre y (List.mem_cons_of_mem _ hy))
    exact ⟨fun h1 => hstep.trans (ih2.1 h1), fun h1 h2 => hstep.trans (ih2.2 h1 h2)⟩

/-- C1 witness: a first-entry containment hit beats a later identical
entry, and a first-entry similarity hit beats a later containment entry. -/
theorem c1_tiebreak_witness :
    fuzzyFind "abcd".toList ["xabcdx".toList, "abcd".toList] =
      some (FuzzyHit.contain "xabcdx".toList) ∧
    fuzzyFind "abcdef".toList ["abcdex".toList, "abcdef".toList] =
      some (FuzzyHit.similar "abcdex".toList
        (ratio (lower "abcdef".toList) (lower "abcdex".toList))) :=
  ⟨(c1_tiebreak "abcd".toList "xabcdx".toList [] ["abcd".toList]
      (by intro x hx; simp at hx)).1 (by decide),
   (c1_tiebreak "abcdef".toList "abcdex".toList [] ["abcdef".toList]
      (by intro x hx; simp at hx)).2 (by decide) (by decide)⟩

/-- C2 counterexample: for A equal to Excel and B equal to Excell the
code classifies via the substring-containment branch, and the stored
match line is plain Excel arrow Excell, carrying no similarity score. -/
theorem c2_counterexample :
    classify "Excel".toList ["Excell".toList] =
      MatchResult.fuzzyContain "Excell".toList ∧
    matchedEntry "Excel".toList ["Excell".toList] = some "Excel -> Excell".toList ∧
    isSubstr " (similarity: ".toList "Excel -> Excell".toList = false := by
  decide

/-- C2 amended: Excel against Excell is classified Fuzzy via the
substring-containment strategy (both lengths exceed 3 and the lowered
names are in the containment relation), so the match line has no score;
the similarity ratio of the pair is 10/11, which does exceed 0.80 and
formats to 0.91, but the loop breaks before consulting it. -/
theorem c2_amended :
    classify "Excel".toList ["Excell".toList] =
      MatchResult.fuzzyContain "Excell".toList ∧
    ratio (lower "Excel".toList) (lower "Excell".toList) = mkRat 10 11 ∧
    simThreshold < mkRat 10 11 ∧
    fmt2 (mkRat 10 11) = "0.91".toList := by
  decide

/-- C3: a containment classification always passed the strictly greater
than 3 length gate on both names; and an A-name whose relation to every
B entry fails the gate and whose every ratio stays at or under 0.80,
with no exact match, ends Unmatched. -/
theorem c3_length_gate (app : List Char) (ais : List (List Char)) :
    (∀ ai, classify app ais = MatchResult.fuzzyContain ai →
      3 < (appClean app).length ∧ 3 < ai.length) ∧
    ((∀ x ∈ ais, ¬(3 < (appClean app).length ∧ 3 < x.length) ∧
        ¬(simThreshold < ratio (lower (appClean app)) (lower x))) →
      exactMatch (appClean app) ais = false →
      classify app ais = MatchResult.unmatched) := by
  constructor
  · intro ai h
    unfold classify at h
    by_cases he : exactMatch (appClean app) ais
    · rw [if_pos he] at h; exact absurd h (by simp)
    · rw [if_neg he] at h
      cases hf : fuzzyFind (appClean app) ais with
      | none => rw [hf] at h; exact absurd h (by simp)
      | some hit =>
        cases hit with
        | contain x =>
          rw [hf] at h
          simp only [MatchResult.fuzzyContain.injEq] at h
          subst h
          exact fuzzyFind_contain_lengths (appClean app) ais x hf
        | similar x s => rw [hf] at h; exact absurd h (by simp)
  · intro hall he
    unfold classify
    rw [if_neg (by simp [he]), fuzzyFind_none (appClean app) ais hall]

/-- C3 witness: a containment hit on abcd and abcde indeed has both
lengths above 3, and a 2-character name related only by short
containment (ratio two thirds) ends Unmatched. -/
theorem c3_length_gate_witness :
    (3 < (appClean "abcd".toList).length ∧ 3 < "abcde".toList.length) ∧
    classify "ab".toList ["zaby".toList] = MatchResult.unmatched :=
  ⟨(c3_length_gate "abcd".toList ["abcde".toList]).1 "abcde".toList (by decide),
   (c3_length_gate "ab".toList ["zaby".toList]).2 (by decide) (by decide)⟩

/-- C4: a case-folded equality with any B entry yields the Exact
classification, and the stored entry is the bare cleaned name. -/
theorem c4_exact_first (app : List Char) (ais : List (List Char))
    (h : ∃ ai ∈ ais, lower (appClean app) = lower ai) :
    classify app ais = MatchResult.exact ∧
    matchedEntry app ais = some (appClean app) := by
  have hx : exactMatch (appClean app) ais = true := by
    rcases h with ⟨ai, hmem, he⟩
    unfold exactMatch
    rw [List.any_eq_true]
    exact ⟨ai, hmem, by simp [he]⟩
  have hcl : classify app ais = MatchResult.exact := by
    unfold classify; rw [if_pos hx]
  exact ⟨hcl, by unfold matchedEntry; rw [hcl]⟩

/-- C4 witness: Zoom against a list holding zoom is classified Exact. -/
theorem c4_exact_first_witness :
    classify "Zoom".toList ["zoom".toList] = MatchResult.exact ∧
    matchedEntry "Zoom".toList ["zoom".toList] = some (appClean "Zoom".toList) :=
  c4_exact_first "Zoom".toList ["zoom".toList] (by decide)

/-- C6 counterexample: the splitter strips only leading and trailing
quotes, so the field a-backslash-quote-b produced from the middle of
this line still holds a double-quote character. -/
theorem c6_counterexample :
    parseLine "x,a\\\"b,y".toList =
      ["x".toList, "a\\\"b".toList, "y".toList] ∧
    '"' ∈ "a\\\"b".toList := by
  decide

/-- C6 amended: the splitter closes a field exactly on a comma read
while the inside-quotes flag is off, and quote characters are stripped
only from the two ends of each field value: no produced field starts or
ends with a quote, though interior quotes may remain. -/
theorem c6_split_and_strip :
    (∀ (st : SplitState) (c : Char),
      ((splitStep st c).fields.length = st.fields.length + 1 ↔
        (c = ',' ∧ st.inQuotes = false)) ∧
      (¬(c = ',' ∧ st.inQuotes = false) → (splitStep st c).fields = st.fields)) ∧
    (∀ line f, f ∈ parseLine line →
      f.head? ≠ some '"' ∧ f.getLast? ≠ some '"') := by
  constructor
  · intro st c
    obtain ⟨fs, cu, q⟩ := st
    unfold splitStep
    split_ifs with h1 h2
    · constructor
      · constructor
        · intro h; simp at h
        · intro h; exact absurd h1.1 (by rw [h.1]; decide)
      · intro _; rfl
    · constructor
      · constructor
        · intro _; exact h2
        · intro _; simp
      · intro h; exact absurd h2 h
    · constructor
      · constructor
        · intro h; simp at h
        · intro h; exact absurd h h2
      · intro _; rfl
  · intro line f hf
    obtain ⟨s, rfl⟩ := parseLine_mem_strip line f hf
    constructor
    · intro h
      have := stripBy_head_not (p := fun c => c == '"') s '"' h
      simp at this
    · intro h
      have := stripBy_getLast_not (p := fun c => c == '"') s '"' h
      simp at this

/-- C6 witness: a comma outside quotes closes a field on a concrete
state, and a concrete parsed field neither starts nor ends with a quote. -/
theorem c6_split_and_strip_witness :
    (splitStep ⟨[], "ab".toList, false⟩ ',').fields.length =
      (([] : List (List Char)).length + 1) ∧
    ("ab".toList.head? ≠ some '"' ∧ "ab".toList.getLast? ≠ some '"') :=
  ⟨(c6_split_and_strip.1 ⟨[], "ab".toList, false⟩ ',').1.mpr (by decide),
   c6_split_and_strip.2 "ab".toList "ab".toList (by decide)⟩

/-- C7: a row whose parsed field count is at most 3 (the target column
index) contributes no name; the loader, a total function, skips it. -/
theorem c7_short_row_skipped (line : List Char)
    (h : (parseLine line).length ≤ 3) : rowNamesA line = [] := by
  unfold rowNamesA
  by_cases h1 : stripWS line = []
  · rw [if_pos h1]
  · rw [if_neg h1]
    have h2 : ¬ 3 < (parseLine line).length := by omega
    simp [h2]

/-- C7 witness: the two-field row a,b is skipped. -/
theorem c7_short_row_skipped_witness :
    (parseLine "a,b".toList).length ≤ 3 ∧ rowNamesA "a,b".toList = [] :=
  ⟨by decide, c7_short_row_skipped "a,b".toList (by decide)⟩

/-- Totality of the code-point lexicographic comparison. -/
theorem lexLe_total : ∀ x y : List Char, lexLe x y = true ∨ lexLe y x = true := by
  intro x
  induction x with
  | nil => intro y; left; rfl
  | cons c cs ih =>
    intro y
    cases y with
    | nil => right; rfl
    | cons d ds =>
      rw [lexLe, lexLe]
      by_cases h1 : c.toNat < d.toNat
      · left; rw [if_pos h1]
      · by_cases h2 : d.toNat < c.toNat
        · right; rw [if_pos h2]
        · rw [if_neg h1, if_neg h2, if_neg h2, if_neg h1]
          exact ih ds

/-- Transitivity of the code-point lexicographic comparison. -/
theorem lexLe_trans : ∀ x y z : List Char,
    lexLe x y = true → lexLe y z = true → lexLe x z = true := by
  intro x
  induction x with
  | nil => intro y z _ _; rfl
  | cons c cs ih =>
    intro y z hxy hyz
    cases y with
    | nil => rw [lexLe] at hxy; exact absurd hxy (by simp)
    | cons d ds =>
      cases z with
      | nil => rw [lexLe] at hyz; exact absurd hyz (by simp)
      | cons e es =>
        rw [lexLe] at hxy hyz ⊢
        by_cases h1 : c.toNat < d.toNat
        · by_cases h2 : d.toNat < e.toNat
          · rw [if_pos (by omega : c.toNat < e.toNat)]
          · by_cases h3 : e.toNat < d.toNat
            · rw [if_neg h2, if_pos h3] at hyz; exact absurd hyz (by simp)
            · rw [if_pos (by omega : c.toNat < e.toNat)]
        · by_cases h1x : d.toNat < c.toNat
          · rw [if_neg h1, if_pos h1x] at hxy; exact absurd hxy (by simp)
          · rw [if_neg h1, if_neg h1x] at hxy
            by_cases h2 : d.toNat < e.toNat
            · rw [if_pos (by omega : c.toNat < e.toNat)]
            · by_cases h3 : e.toNat < d.toNat
              · rw [if_neg h2, if_pos h3] at hyz; exact absurd hyz (by simp)
              · rw [if_neg h2, if_neg h3] at hyz
                rw [if_neg (by omega : ¬ c.toNat < e.toNat),
                  if_neg (by omega : ¬ e.toNat < c.toNat)]
                exact ih ds es hxy hyz

/-- C8: for every pair of input name lists, the printed unmatched list
is sorted under the string order and is a permutation of the names
classified Unmatched. -/
theorem c8_unmatched_sorted (apps ais : List (List Char)) :
    List.Sorted lexRel (sortedUnmatched apps ais) ∧
    (sortedUnmatched apps ais).Perm (unmatchedApps apps ais) := by
  haveI : IsTotal (List Char) lexRel := ⟨lexLe_total⟩
  haveI : IsTrans (List Char) lexRel := ⟨fun x y z => lexLe_trans x y z⟩
  exact ⟨List.sorted_insertionSort lexRel (unmatchedApps apps ais),
    List.perm_insertionSort lexRel (unmatchedApps apps ais)⟩

/-- C9: every A-name lands in exactly one of the two accumulators, so
the matched and unmatched counts add up to the total count. -/
theorem c9_counts_add (apps ais : List (List Char)) :
    (matchedApps apps ais).length + (unmatchedApps apps ais).length = apps.length := by
  induction apps with
  | nil => rfl
  | cons app rest ih =>
    cases h : classify app ais <;>
      simp only [matchedApps, unmatchedApps, List.filterMap_cons, matchedEntry,
        unmatchedEntry, h, List.length_cons] at * <;>
      simp_all <;> omega

/-- C10: the fuzzy report section is selected by the arrow substring,
not by the classification: the name a-arrow-b exactly matching a B
entry is classified Exact yet its stored line appears among the
reported fuzzy lines. -/
theorem c10_exact_in_fuzzy_report :
    classify "a -> b".toList ["a -> b".toList] = MatchResult.exact ∧
    matchedApps ["a -> b".toList] ["a -> b".toList] = ["a -> b".toList] ∧
    fuzzyMatches ["a -> b".toList] ["a -> b".toList] = ["a -> b".toList] ∧
    fuzzyReport ["a -> b".toList] ["a -> b".toList] = ["a -> b".toList] := by
  decide

/-! find_longest_match invariants, leading to the three C5 facts. -/

/-- Membership in the visited-columns list gives the range bounds and
the character equation. -/
theorem flmCols_mem (b : List Char) (c : Char) (blo bhi j : Nat)
    (h : j ∈ flmCols b c blo bhi) :
    blo ≤ j ∧ j < bhi ∧ b.getD j defaultChar = c := by
  unfold flmCols b2j at h
  simp only [List.mem_filter, List.mem_range, Bool.and_eq_true, decide_eq_true_eq,
    beq_iff_eq] at h
  exact ⟨h.2.1, h.2.2, h.1.2⟩

/-- The inner fold of one row preserves both invariants: the fresh run
table describes runs ending at row i, and the best block stays a
genuine block. -/
theorem flmInner_fold_inv (a b : List Char) (alo ahi blo bhi i : Nat)
    (hai : alo ≤ i) (hia : i < ahi)
    (old : Nat → Nat) (hold : J2Before a b alo blo bhi i old) :
    ∀ (js : List Nat) (acc : FlmState),
      (∀ j ∈ js, blo ≤ j ∧ j < bhi ∧ b.getD j defaultChar = a.getD i defaultChar) →
      J2Before a b alo blo bhi (i + 1) acc.j2len →
      BestInv a b alo ahi blo bhi acc.besti acc.bestj acc.bestsize →
      J2Before a b alo blo bhi (i + 1) (js.foldl (flmInner old i) acc).j2len ∧
      BestInv a b alo ahi blo bhi (js.foldl (flmInner old i) acc).besti
        (js.foldl (flmInner old i) acc).bestj
        (js.foldl (flmInner old i) acc).bestsize := by
  intro js
  induction js with
  | nil => intro acc _ h1 h2; exact ⟨h1, h2⟩
  | cons j rest ih =>
    intro acc hjs h1 h2
    obtain ⟨hbl, hbh, hchar⟩ := hjs j (List.mem_cons_self j rest)
    have hk1 : alo + runLen old j ≤ i + 1 := by
      unfold runLen
      by_cases hj0 : j = 0
      · rw [if_pos hj0]; omega
      · rw [if_neg hj0]
        by_cases hL : 0 < old (j - 1)
        · have := (hold (j - 1) hL).2.2.1; omega
        · omega
    have hk2 : blo + runLen old j ≤ j + 1 := by
      unfold runLen
      by_cases hj0 : j = 0
      · rw [if_pos hj0]; omega
      · rw [if_neg hj0]
        by_cases hL : 0 < old (j - 1)
        · have := (hold (j - 1) hL).2.2.2.1; omega
        · omega
    have hk3 : MatchRun a b (i + 1 - runLen old j) (j + 1 - runLen old j)
        (runLen old j) := by
      intro t ht
      by_cases hj0 : j = 0
      · unfold runLen at ht ⊢
        rw [if_pos hj0] at ht ⊢
        have ht0 : t = 0 := by omega
        subst ht0
        have e1 : i + 1 - (0 + 1) + 0 = i := by omega
        have e2 : j + 1 - (0 + 1) + 0 = j := by omega
        rw [e1, e2]
        exact hchar.symm
      · by_cases hL : 0 < old (j - 1)
        · obtain ⟨hbl2, hbh2, hLi, hLj, hrun⟩ := hold (j - 1) hL
          unfold runLen at ht ⊢
          rw [if_neg hj0] at ht ⊢
          by_cases htL : t < old (j - 1)
          · have e1 : i + 1 - (old (j - 1) + 1) + t = i - old (j - 1) + t := by
              omega
            have e2 : j + 1 - (old (j - 1) + 1) + t =
                j - 1 + 1 - old (j - 1) + t := by omega
            rw [e1, e2]
            exact hrun t htL
          · have hteq : t = old (j - 1) := by omega
            subst hteq
            have e1 : i + 1 - (old (j - 1) + 1) + old (j - 1) = i := by omega
            have e2 : j + 1 - (old (j - 1) + 1) + old (j - 1) = j := by omega
            rw [e1, e2]
            exact hchar.symm
        · unfold runLen at ht ⊢
          rw [if_neg hj0] at ht ⊢
          have hL0 : old (j - 1) = 0 := by omega
          rw [hL0] at ht ⊢
          have ht0 : t = 0 := by omega
          subst ht0
          have e1 : i + 1 - (0 + 1) + 0 = i := by omega
          have e2 : j + 1 - (0 + 1) + 0 = j := by omega
          rw [e1, e2]
          exact hchar.symm
    have hJ : J2Before a b alo blo bhi (i + 1) ((flmInner old i acc j).j2len) := by
      intro x hx
      by_cases hxj : x = j
      · subst hxj
        have hfx : (flmInner old i acc x).j2len x = runLen old x := by
          simp [flmInner]
        rw [hfx] at hx ⊢
        exact ⟨hbl, hbh, hk1, hk2, hk3⟩
      · have hfx : (flmInner old i acc j).j2len x = acc.j2len x := by
          simp [flmInner, hxj]
        rw [hfx] at hx ⊢
        exact h1 x hx
    have hB : BestInv a b alo ahi blo bhi (flmInner old i acc j).besti
        (flmInner old i acc j).bestj (flmInner old i acc j).bestsize := by
      by_cases hbest : acc.bestsize < runLen old j
      · have e1 : (flmInner old i acc j).besti = i + 1 - runLen old j := by
          simp [flmInner, hbest]
        have e2 : (flmInner old i acc j).bestj = j + 1 - runLen old j := by
          simp [flmInner, hbest]
        have e3 : (flmInner old i acc j).bestsize = runLen old j := by
          simp [flmInner, hbest]
        rw [e1, e2, e3]
        right
        have hkpos : 1 ≤ runLen old j := by
          unfold runLen; exact Nat.succ_le_succ (Nat.zero_le _)
        exact ⟨hkpos, by omega, by omega, by omega, by omega, hk3⟩
      · have e1 : (flmInner old i acc j).besti = acc.besti := by
          simp [flmInner, hbest]
        have e2 : (flmInner old i acc j).bestj = acc.bestj := by
          simp [flmInner, hbest]
        have e3 : (flmInner old i acc j).bestsize = acc.bestsize := by
          simp [flmInner, hbest]
        rw [e1, e2, e3]
        exact h2
    rw [List.foldl_cons]
    exact ih (flmInner old i acc j) (fun x hx => hjs x (List.mem_cons_of_mem _ hx)) hJ hB

/-- The row fold over rows i, i+1, ... preserves the best-block
invariant, threading the run-table invariant along. -/
theorem flmRow_fold_inv (a b : List Char) (alo ahi blo bhi : Nat) :
    ∀ (n i : Nat) (st : FlmState), alo ≤ i → i + n ≤ ahi →
      J2Before a b alo blo bhi i st.j2len →
      BestInv a b alo ahi blo bhi st.besti st.bestj st.bestsize →
      BestInv a b alo ahi blo bhi
        (((List.range' i n).foldl (flmRow a b blo bhi) st).besti)
        (((List.range' i n).foldl (flmRow a b blo bhi) st).bestj)
        (((List.range' i n).foldl (flmRow a b blo bhi) st).bestsize) := by
  intro n
  induction n with
  | zero => intro i st _ _ _ hb; simpa using hb
  | succ m ih =>
    intro i st hai hin hJ hB
    rw [List.range'_succ, List.foldl_cons]
    have hia : i < ahi := by omega
    have hrow := flmInner_fold_inv a b alo ahi blo bhi i hai hia st.j2len hJ
      (flmCols b (a.getD i defaultChar) blo bhi)
      { st with j2len := fun _ => 0 }
      (fun j hj => flmCols_mem b (a.getD i defaultChar) blo bhi j hj)
      (fun j hj => absurd hj (by simp))
      hB
    have hrw : flmRow a b blo bhi st i =
        (flmCols b (a.getD i defaultChar) blo bhi).foldl (flmInner st.j2len i)
          { st with j2len := fun _ => 0 } := rfl
    rw [hrw]
    exact ih (i + 1) _ (by omega) (by omega) hrow.1 hrow.2

/-- Specification of find_longest_match: the returned triple is either
empty or a genuine matching block of a[alo:ahi] and b[blo:bhi]. -/
theorem findLongestMatch_spec (a b : List Char) (alo ahi blo bhi : Nat) :
    BestInv a b alo ahi blo bhi
      (findLongestMatch a b alo ahi blo bhi).1
      (findLongestMatch a b alo ahi blo bhi).2.1
      (findLongestMatch a b alo ahi blo bhi).2.2 := by
  unfold findLongestMatch
  by_cases hle : alo ≤ ahi
  · exact flmRow_fold_inv a b alo ahi blo bhi (ahi - alo) alo
      { j2len := fun _ => 0, besti := alo, bestj := blo, bestsize := 0 }
      (Nat.le_refl alo) (by omega)
      (fun j hj => absurd hj (by simp))
      (Or.inl rfl)
  · have h0 : ahi - alo = 0 := by omega
    rw [h0]
    exact Or.inl rfl

/-- Sum of block sizes distributes over append. -/
theorem sumK_append (l1 l2 : List (Nat × Nat × Nat)) :
    sumK (l1 ++ l2) = sumK l1 + sumK l2 := by
  simp [sumK]

/-- Sum of block sizes over cons. -/
theorem sumK_cons (x : Nat × Nat × Nat) (l : List (Nat × Nat × Nat)) :
    sumK (x :: l) = x.2.2 + sumK l := by
  simp [sumK]

/-- The matched total of the block decomposition never exceeds either
interval length. -/
theorem sumK_matchingBlocksAux_le (a b : List Char) :
    ∀ (fuel alo ahi blo bhi : Nat),
      sumK (matchingBlocksAux a b fuel alo ahi blo bhi) ≤ ahi - alo ∧
      sumK (matchingBlocksAux a b fuel alo ahi blo bhi) ≤ bhi - blo := by
  intro fuel
  induction fuel with
  | zero => intro alo ahi blo bhi; simp [matchingBlocksAux, sumK]
  | succ m ih =>
    intro alo ahi blo bhi
    have hspec := findLongestMatch_spec a b alo ahi blo bhi
    rcases hfm : findLongestMatch a b alo ahi blo bhi with ⟨i, j, k⟩
    rw [hfm] at hspec
    simp only at hspec
    simp only [matchingBlocksAux, hfm]
    by_cases hk : k = 0
    · rw [if_pos hk]; simp [sumK]
    · rw [if_neg hk]
      rcases hspec with h0 | ⟨h1, h2, h3, h4, h5, _⟩
      · exact absurd h0 hk
      · rw [sumK_append, sumK_cons]
        have ihl := ih alo i blo j
        have ihr := ih (i + k) ahi (j + k) bhi
        simp only at *
        constructor <;> omega

/-- When the block decomposition covers both intervals completely, the
two intervals agree pointwise. -/
theorem matchingBlocksAux_full (a b : List Char) :
    ∀ (fuel alo ahi blo bhi : Nat),
      sumK (matchingBlocksAux a b fuel alo ahi blo bhi) = ahi - alo →
      sumK (matchingBlocksAux a b fuel alo ahi blo bhi) = bhi - blo →
      ∀ t, t < ahi - alo →
        a.getD (alo + t) defaultChar = b.getD (blo + t) defaultChar := by
  intro fuel
  induction fuel with
  | zero =>
    intro alo ahi blo bhi h1 _ t ht
    simp [matchingBlocksAux, sumK] at h1
    omega
  | succ m ih =>
    intro alo ahi blo bhi h1 h2 t ht
    have hspec := findLongestMatch_spec a b alo ahi blo bhi
    rcases hfm : findLongestMatch a b alo ahi blo bhi with ⟨i, j, k⟩
    rw [hfm] at hspec
    simp only at hspec
    rw [show matchingBlocksAux a b (m + 1) alo ahi blo bhi =
        (if k = 0 then [] else matchingBlocksAux a b m alo i blo j ++
          (i, j, k) :: matchingBlocksAux a b m (i + k) ahi (j + k) bhi) by
      simp only [matchingBlocksAux, hfm]] at h1 h2
    by_cases hk : k = 0
    · rw [if_pos hk] at h1
      simp [sumK] at h1
      omega
    · rw [if_neg hk] at h1 h2
      rcases hspec with h0 | ⟨hk1, hi1, hi2, hj1, hj2, hrun⟩
      · exact absurd h0 hk
      · rw [sumK_append, sumK_cons] at h1 h2
        simp only at h1 h2
        obtain ⟨sLa, sLb⟩ := sumK_matchingBlocksAux_le a b m alo i blo j
        obtain ⟨sRa, sRb⟩ := sumK_matchingBlocksAux_le a b m (i + k) ahi (j + k) bhi
        have eLa : sumK (matchingBlocksAux a b m alo i blo j) = i - alo := by omega
        have eLb : sumK (matchingBlocksAux a b m alo i blo j) = j - blo := by omega
        have eRa : sumK (matchingBlocksAux a b m (i + k) ahi (j + k) bhi) =
            ahi - (i + k) := by omega
        have eRb : sumK (matchingBlocksAux a b m (i + k) ahi (j + k) bhi) =
            bhi - (j + k) := by omega
        by_cases c1 : t < i - alo
        · exact ih alo i blo j eLa eLb t c1
        · by_cases c2 : t < i - alo + k
          · have ea : alo + t = i + (t - (i - alo)) := by omega
            have eb : blo + t = j + (t - (i - alo)) := by omega
            rw [ea, eb]
            exact hrun _ (by omega)
          · have ea : alo + t = (i + k) + (t - (i - alo) - k) := by omega
            have eb : blo + t = (j + k) + (t - (i - alo) - k) := by omega
            rw [ea, eb]
            exact ih (i + k) ahi (j + k) bhi eRa eRb _ (by omega)

/-- The matched total over the full sequences is the block-size sum. -/
theorem matchesTotal_eq_sumK (a b : List Char) :
    matchesTotal a b = sumK (matchingBlocks a b) := rfl

/-- The matched total never exceeds either sequence length. -/
theorem matchesTotal_le (a b : List Char) :
    matchesTotal a b ≤ a.length ∧ matchesTotal a b ≤ b.length := by
  have h := sumK_matchingBlocksAux_le a b (a.length + 1) 0 a.length 0 b.length
  rw [matchesTotal_eq_sumK]
  unfold matchingBlocks
  omega

/-- C5 counterexample: the sequence-matching ratio of the matcher is
not symmetric; on tide and diet the greedy longest-block recursion
finds one matched character in one direction and two in the other. -/
theorem c5_counterexample :
    ratio "tide".toList "diet".toList ≠ ratio "diet".toList "tide".toList ∧
    ratio "tide".toList "diet".toList = mkRat 1 4 ∧
    ratio "diet".toList "tide".toList = mkRat 1 2 := by
  decide

/-- C5 amended: the ratio lies in [0, 1] and equals 1 only for
identical strings; symmetry, however, does not hold in general. -/
theorem c5_ratio_bounds (a b : List Char) :
    0 ≤ ratio a b ∧ ratio a b ≤ 1 ∧ (ratio a b = 1 → a = b) := by
  obtain ⟨hma, hmb⟩ := matchesTotal_le a b
  unfold ratio
  by_cases hT : a.length + b.length = 0
  · rw [if_pos hT]
    refine ⟨by norm_num, le_refl 1, fun _ => ?_⟩
    have ha : a = [] := List.length_eq_zero.mp (by omega)
    have hb : b = [] := List.length_eq_zero.mp (by omega)
    rw [ha, hb]
  · rw [if_neg hT, Rat.mkRat_eq_div]
    have hTpos : (0 : ℚ) < ((a.length + b.length : ℕ) : ℚ) := by
      exact_mod_cast Nat.pos_of_ne_zero hT
    refine ⟨?_, ?_, ?_⟩
    · apply div_nonneg _ (le_of_lt hTpos)
      push_cast
      positivity
    · rw [div_le_one hTpos]
      have h2 : 2 * matchesTotal a b ≤ a.length + b.length := by omega
      push_cast
      exact_mod_cast h2
    · intro h1
      rw [div_eq_one_iff_eq (ne_of_gt hTpos)] at h1
      have h2 : 2 * matchesTotal a b = a.length + b.length := by exact_mod_cast h1
      have hMa : matchesTotal a b = a.length := by omega
      have hlen : a.length = b.length := by omega
      have e1 : sumK (matchingBlocksAux a b (a.length + 1) 0 a.length 0 b.length) =
          a.length - 0 := by
        have h := matchesTotal_eq_sumK a b
        unfold matchingBlocks at h
        omega
      have e2 : sumK (matchingBlocksAux a b (a.length + 1) 0 a.length 0 b.length) =
          b.length - 0 := by
        have h := matchesTotal_eq_sumK a b
        unfold matchingBlocks at h
        omega
      have hfull := matchingBlocksAux_full a b (a.length + 1) 0 a.length 0 b.length e1 e2
      apply List.ext_getElem hlen
      intro n h1n h2n
      have hpt := hfull n (by omega)
      rw [Nat.zero_add] at hpt
      rw [List.getD_eq_getElem a defaultChar h1n,
        List.getD_eq_getElem b defaultChar h2n] at hpt
      exact hpt

/-- C5 witness: the bounds and the identity implication evaluated on a
concrete pair. -/
theorem c5_ratio_bounds_witness :
    0 ≤ ratio "ab".toList "ab".toList ∧ ratio "ab".toList "ab".toList ≤ 1 ∧
    "ab".toList = "ab".toList :=
  ⟨(c5_ratio_bounds "ab".toList "ab".toList).1,
   (c5_ratio_bounds "ab".toList "ab".toList).2.1,
   (c5_ratio_bounds "ab".toList "ab".toList).2.2 (by decide)⟩

end FuzzyMatch
